import Mathlib

/-!
Verification of the filing-acquisition and caching pipeline of the
`mcp-edgar-ux` repository (package `mcp_edgar_ux`), as a shallow embedding.

Embedded source files:
* `mcp_edgar_ux/adapters/filesystem.py` — `FilesystemCache`
* `mcp_edgar_ux/adapters/search.py` — `GrepSearcher`
* `mcp_edgar_ux/adapters/edgar.py` — `TTLCache`, `EdgarAdapter`
* `mcp_edgar_ux/core/services.py` — `FetchFilingService.execute`

Python strings are modelled as Lean `String` (a list of Unicode code
points); Python string comparison is code-point lexicographic, embedded
below as `charListLt`/`strLt`/`strLe`.  The filesystem is modelled
explicitly as a value of type `FS` (a set of directories plus a map from
paths to file contents), threaded through every operation that touches
disk.  Wall-clock time is modelled as a natural number of seconds.
-/

/-- Python `str.upper()`.  The source only upper-cases ASCII tickers and
form types, for which Python's Unicode-aware `upper()` agrees with the
per-character ASCII `Char.toUpper`. -/
def pyUpper (s : String) : String :=
  String.mk (s.data.map Char.toUpper)

/-- The whitespace characters stripped by Python `str.strip()` (ASCII
subset; the strings handled by the searcher are ugrep output framed in
ASCII). -/
def pyIsSpace (c : Char) : Bool :=
  c = ' ' || c = '\t' || c = '\n' || c = '\r' || c = '\x0b' || c = '\x0c'

/-- `not s.strip()` in Python: the string is empty or all whitespace. -/
def isBlank (s : String) : Bool :=
  s.data.all pyIsSpace

/-- Strip `pyIsSpace` characters from both ends of a character list
(Python `str.strip()`). -/
def pyStripChars (l : List Char) : List Char :=
  ((l.dropWhile pyIsSpace).reverse.dropWhile pyIsSpace).reverse

/-- Accumulate the value of a digit string (most significant first). -/
def digitsVal : List Char → Nat → Nat
  | [], acc => acc
  | c :: rest, acc => digitsVal rest (acc * 10 + (c.toNat - '0'.toNat))

/-- Python `int(s)` as used on the line-number field of `ugrep -n`
output: optional surrounding whitespace around an unsigned decimal
numeral.  (Python's `int` also accepts signs and underscores; `ugrep -n`
emits plain digits, so those cases cannot arise here.)  `none` models
`ValueError`. -/
def pyInt (s : String) : Option Nat :=
  let t := pyStripChars s.data
  if t ≠ [] ∧ t.all Char.isDigit then some (digitsVal t 0) else none

/-- Strict code-point lexicographic order on character lists: Python's
`<` on strings. -/
def charListLt : List Char → List Char → Bool
  | [], [] => false
  | [], _ :: _ => true
  | _ :: _, [] => false
  | a :: as, b :: bs => if a < b then true else if b < a then false else charListLt as bs

/-- Python `s < t` on strings. -/
def strLt (s t : String) : Bool :=
  charListLt s.data t.data

/-- Python `s <= t` on strings (equivalently `not (t < s)`). -/
def strLe (s t : String) : Bool :=
  !(strLt t s)

/-- Count of `'\n'` occurrences in a string, i.e. Python
`content.count('\n')`; also the number of newline bytes of the UTF-8
encoding (in valid UTF-8 the byte `0x0A` occurs exactly at the code
point U+000A). -/
def countNewlines (s : String) : Nat :=
  s.data.count '\n'

/-- UTF-8 byte length of a string: `len(content.encode('utf-8'))`, and
the `st_size` reported by `stat` for a file holding exactly this text. -/
def utf8Length (s : String) : Nat :=
  (s.data.map Char.utf8Size).sum

/-! ## Filesystem model

A filesystem state is a set of existing directories plus a finite map
from paths to file contents.  Paths are lists of components. -/

/-- A filesystem state. -/
structure FS where
  dirs : List (List String)
  files : List (List String × String)
deriving DecidableEq, Repr

/-- Lookup of a file's content at a path (first binding wins). -/
def findFile : List (List String × String) → List String → Option String
  | [], _ => none
  | (q, s) :: rest, p => if q = p then some s else findFile rest p

/-- All nonempty ancestor paths of a path, shortest first (the chain of
directories `mkdir -p` ensures). -/
def dirChain (p : List String) : List (List String) :=
  (List.range p.length).map (fun n => p.take (n + 1))

/-- Add a directory if not already present. -/
def addDir (ds : List (List String)) (q : List String) : List (List String) :=
  if ds.contains q then ds else ds ++ [q]

/-- `Path.mkdir(parents=True, exist_ok=True)`: create the directory and
all missing ancestors; files are untouched. -/
def FS.mkdirP (fs : FS) (p : List String) : FS :=
  { fs with dirs := (dirChain p).foldl addDir fs.dirs }

/-- `Path.exists()`: true if a file or a directory is present at the
path. -/
def FS.pathExists (fs : FS) (p : List String) : Bool :=
  (findFile fs.files p).isSome || fs.dirs.contains p

/-- `Path.write_text(content, encoding='utf-8')`: create or overwrite
the file at the path. -/
def FS.writeFile (fs : FS) (p : List String) (s : String) : FS :=
  { fs with files := (p, s) :: fs.files.filter (fun e => !decide (e.1 = p)) }

/-! ## `FilesystemCache` (`mcp_edgar_ux/adapters/filesystem.py`) -/

/-- `FilesystemCache.__init__`: the adapter holds the cache root
directory. -/
structure FilesystemCache where
  cache_dir : List String
deriving DecidableEq, Repr

/-- The extension table `{"markdown": ".md", "text": ".txt", "html":
".html"}[format]`; `none` models the `KeyError` raised on any other
format. -/
def extFor (format : String) : Option String :=
  if format = "markdown" then some ".md"
  else if format = "text" then some ".txt"
  else if format = "html" then some ".html"
  else none

/-- `FilesystemCache._ensure_dir`: `self.cache_dir / ticker.upper() /
form_type.upper()`, created with `mkdir(parents=True, exist_ok=True)`. -/
def FilesystemCache.ensureDir (c : FilesystemCache) (fs : FS) (ticker form_type : String) :
    FS × List String :=
  let p := c.cache_dir ++ [pyUpper ticker, pyUpper form_type]
  (fs.mkdirP p, p)

/-- `FilesystemCache._get_path`: look up the extension (raising
`KeyError` — modelled `none` — before any filesystem access), ensure the
ticker/form directory exists, and return `cache_dir / f"{filing_date}{ext}"`
together with the filesystem state after the `mkdir`. -/
def FilesystemCache.getPath (c : FilesystemCache) (fs : FS)
    (ticker form_type filing_date format : String) : Option (FS × List String) :=
  match extFor format with
  | none => none
  | some ext =>
    let r := c.ensureDir fs ticker form_type
    some (r.1, r.2 ++ [filing_date ++ ext])

/-- The path `_get_path` computes, as a pure value (proved below to be
exactly the path component of `getPath`, for every starting filesystem). -/
def FilesystemCache.pathFor (c : FilesystemCache)
    (ticker form_type filing_date format : String) : Option (List String) :=
  (extFor format).map
    (fun ext => c.cache_dir ++ [pyUpper ticker, pyUpper form_type, filing_date ++ ext])

/-- `FilesystemCache.get`: the derived path if a filesystem object
exists there, else `None`; returns the filesystem state after
`_get_path`'s directory creation. -/
def FilesystemCache.get (c : FilesystemCache) (fs : FS)
    (ticker form_type filing_date format : String) : Option (FS × Option (List String)) :=
  (c.getPath fs ticker form_type filing_date format).map
    (fun r => (r.1, if r.1.pathExists r.2 then some r.2 else none))

/-- `FilesystemCache.exists`: boolean existence check at the derived
path (with `_get_path`'s directory creation). -/
def FilesystemCache.existsB (c : FilesystemCache) (fs : FS)
    (ticker form_type filing_date format : String) : Option (FS × Bool) :=
  (c.getPath fs ticker form_type filing_date format).map
    (fun r => (r.1, r.1.pathExists r.2))

/-! ## Domain records (`mcp_edgar_ux/core/domain.py`) -/

/-- The `Filing` dataclass. -/
structure Filing where
  ticker : String
  form_type : String
  filing_date : String
  accession_number : String
  sec_url : String
  company_name : Option String := none
  cik : Option String := none
deriving DecidableEq, Repr

/-- `FilesystemCache.save`: derive the path from the content's filing
metadata and format, write the text, return the path.  (`save` takes a
`FilingContent`; only its `filing.ticker`, `filing.form_type`,
`filing.filing_date`, `format` and `content` fields are read, passed
here directly.) -/
def FilesystemCache.save (c : FilesystemCache) (fs : FS)
    (filing : Filing) (content : String) (format : String) : Option (FS × List String) :=
  (c.getPath fs filing.ticker filing.form_type filing.filing_date format).map
    (fun r => (r.1.writeFile r.2 content, r.2))

/-! ## `GrepSearcher` (`mcp_edgar_ux/adapters/search.py`)

The subprocess boundary is explicit: `ugrep` itself is the external
search engine, and the embedding starts from its captured standard
output (`result.stdout` at line 58 of the source).  Everything the
adapter does with that output — `_parse_grep_output`, the total count
and the pagination slice — is embedded. -/

/-- The `SearchMatch` dataclass. -/
structure SearchMatch where
  line_number : Nat
  line_content : String
  context_before : List String
  context_after : List String
deriving DecidableEq, Repr

/-- Python `output.split('\n')` (keeps empty pieces, no trailing-piece
removal). -/
def splitNl : List Char → List Char → List String
  | [], acc => [String.mk acc.reverse]
  | c :: rest, acc =>
    if c = '\n' then String.mk acc.reverse :: splitNl rest []
    else splitNl rest (c :: acc)

/-- Python `s.split(sep, 1)`: text before the first separator, and the
remainder after it (`none` when the separator does not occur — i.e.
`sep in s` is false). -/
def splitOnceAux (sep : Char) : List Char → List Char → List Char × Option (List Char)
  | [], acc => (acc.reverse, none)
  | c :: rest, acc =>
    if c = sep then (acc.reverse, some rest) else splitOnceAux sep rest (c :: acc)

/-- `s.split(sep, 1)` on strings. -/
def splitOnce (s : String) (sep : Char) : String × Option String :=
  let r := splitOnceAux sep s.data []
  (String.mk r.1, r.2.map String.mk)

/-- The context-before loop of `_parse_grep_output`: walk indices
`i-1, i-2, …, 0`, and for every line containing `'-'` insert the text
after the first `'-'` at the front, until `need` lines are collected.
The first argument of the recursion is one more than the index to visit
next (`0` encodes Python's `j < 0`). -/
def collectBefore (lines : List String) (need : Nat) : Nat → List String → List String
  | 0, acc => acc
  | j + 1, acc =>
    if acc.length < need then
      match (splitOnce (lines.getD j "") '-').2 with
      | some ctx => collectBefore lines need j (ctx :: acc)
      | none => collectBefore lines need j acc
    else acc

/-- The context-after loop of `_parse_grep_output`: walk indices
`i+1, i+2, …`, appending the text after the first `'-'` of each line,
stopping at the first line with no `'-'` (the `break`), at the end of
the output, or once `need` lines are collected.  `fuel` is the number of
indices left before the end of `lines`. -/
def collectAfter (lines : List String) (need : Nat) : Nat → Nat → List String → List String
  | 0, _, acc => acc
  | fuel + 1, j, acc =>
    if acc.length < need then
      match (splitOnce (lines.getD j "") '-').2 with
      | some ctx => collectAfter lines need fuel (j + 1) (acc ++ [ctx])
      | none => acc
    else acc

/-- The main scan of `_parse_grep_output`: skip blank lines; on a line
containing `':'` whose prefix before the colon parses as an integer,
emit a `SearchMatch` with its context windows; otherwise move on.
`fuel` starts at `lines.length`, so index `i` walks `0, 1, …`,
mirroring the `while i < len(lines)` loop. -/
def parseLoop (lines : List String) (ctx : Nat) : Nat → Nat → List SearchMatch
  | 0, _ => []
  | fuel + 1, i =>
    let line := lines.getD i ""
    if isBlank line then parseLoop lines ctx fuel (i + 1)
    else
      match splitOnce line ':' with
      | (numStr, some rest) =>
        match pyInt numStr with
        | some n =>
          { line_number := n
            line_content := rest
            context_before := collectBefore lines ctx i []
            context_after := collectAfter lines ctx (lines.length - (i + 1)) (i + 1) [] }
            :: parseLoop lines ctx fuel (i + 1)
        | none => parseLoop lines ctx fuel (i + 1)
      | (_, none) => parseLoop lines ctx fuel (i + 1)

/-- `GrepSearcher._parse_grep_output`. -/
def parseGrepOutput (output : String) (context_lines : Nat) : List SearchMatch :=
  if isBlank output then []
  else
    let lines := splitNl output.data []
    parseLoop lines context_lines lines.length 0

/-- `GrepSearcher.search`, from the point where the `ugrep` subprocess
has produced `output` (= `result.stdout`): parse the output, report the
unpaginated total, and return the slice
`matches[offset : offset + max_results]`. -/
def GrepSearcher.search (output : String) (context_lines max_results offset : Nat) :
    List SearchMatch × Nat :=
  let ms := parseGrepOutput output context_lines
  ((ms.drop offset).take max_results, ms.length)

/-- `GrepSearcher.count_lines`: `wc -l` on the file at the path, i.e.
the number of newline bytes of its content; `none` models the failure
path (`wc` cannot read the file). -/
def GrepSearcher.count_lines (fs : FS) (p : List String) : Option Nat :=
  (findFile fs.files p).map countNewlines

/-! ## `FetchFilingService.execute` (`mcp_edgar_ux/core/services.py`)

The two external collaborators are passed as values: `filing` is what
`fetcher.get_latest(ticker, form_type, date)` resolved, and `fetched`
is what `fetcher.fetch(filing, format, include_exhibits)` would
download.  (`include_exhibits` only parametrizes that download and
`preview_lines` is unused in the source body, so neither appears.)
The returned `Bool` records whether the download branch ran, i.e.
whether `fetcher.fetch` was called. -/

/-- The `FilingContent` record `execute` returns (the `content` field
plus metadata; `path` is always set on return). -/
structure FilingContentOut where
  filing : Filing
  content : String
  format : String
  path : List String
  size_bytes : Nat
  total_lines : Nat
deriving DecidableEq, Repr

/-- The download-and-save branch of `execute` (the `else` arm): fetch,
build the `FilingContent` with `total_lines = content.count('\n') + 1`,
save it, and report `size_bytes` from `stat` on the written path. -/
def FetchFilingService.download (c : FilesystemCache) (fs : FS)
    (filing : Filing) (fetched : String) (format : String) :
    Option (FS × FilingContentOut × Bool) :=
  (c.save fs filing fetched format).map (fun r =>
    (r.1,
     { filing := filing
       content := fetched
       format := format
       path := r.2
       size_bytes := utf8Length fetched
       total_lines := countNewlines fetched + 1 },
     true))

/-- `FetchFilingService.execute`.  `none` models an uncaught exception
(`KeyError` on an unrecognized format, or a read failure on the cached
path). -/
def FetchFilingService.execute (c : FilesystemCache) (fs : FS)
    (filing : Filing) (fetched : String)
    (ticker form_type format : String) (force_refetch : Bool) :
    Option (FS × FilingContentOut × Bool) :=
  if force_refetch then
    FetchFilingService.download c fs filing fetched format
  else
    match c.get fs ticker form_type filing.filing_date format with
    | none => none
    | some (fs1, some p) =>
      match findFile fs1.files p with
      | some content =>
        some (fs1,
          { filing := filing
            content := content
            format := format
            path := p
            size_bytes := utf8Length content
            total_lines := countNewlines content },
          false)
      | none => none
    | some (fs1, none) =>
      FetchFilingService.download c fs1 filing fetched format

/-! ## `TTLCache` and `EdgarAdapter` (`mcp_edgar_ux/adapters/edgar.py`)

`time.time()` is modelled as a natural number of seconds supplied by
the environment; entry timestamps are stored alongside the values, as
the two parallel `dict`s of the source (kept in sync by `get`/`set`).
Upstream calls to SEC.gov appear as `Except String _` values: `.error`
is a raised exception (timeout, HTTP 429, anything else), `.ok` a
successful response. -/

/-- One cache binding: key, value, timestamp. -/
def lookupTS {α : Type} : List (String × α × Nat) → String → Option (α × Nat)
  | [], _ => none
  | (k, v, t) :: rest, key => if k = key then some (v, t) else lookupTS rest key

/-- Remove every binding of a key (`del self.cache[key]` /
`del self.timestamps[key]`). -/
def removeTS {α : Type} (l : List (String × α × Nat)) (key : String) :
    List (String × α × Nat) :=
  l.filter (fun e => !decide (e.1 = key))

/-- The `TTLCache` object: fresh TTL, stale-acceptable TTL, and the
keyed entries with their write timestamps. -/
structure TTLCache (α : Type) where
  ttl : Nat
  stale_ttl : Nat
  entries : List (String × α × Nat)
deriving DecidableEq, Repr

/-- `TTLCache.get(key, allow_stale)` at time `now`: fresh data inside
the TTL window; stale-but-acceptable data (flagged `false`) inside the
stale window when allowed; otherwise the entry is deleted and the
lookup reports a miss.  Returns `((value?, is_fresh), cache-after)`. -/
def TTLCache.get {α : Type} (c : TTLCache α) (key : String) (now : Nat)
    (allow_stale : Bool) : (Option α × Bool) × TTLCache α :=
  match lookupTS c.entries key with
  | some (v, ts) =>
    let age := now - ts
    if age < c.ttl then ((some v, true), c)
    else if allow_stale ∧ age < c.stale_ttl then ((some v, false), c)
    else ((none, false), { c with entries := removeTS c.entries key })
  | none => ((none, false), c)

/-- `TTLCache.set(key, value)` at time `now`. -/
def TTLCache.set {α : Type} (c : TTLCache α) (key : String) (v : α) (now : Nat) :
    TTLCache α :=
  { c with entries := (key, v, now) :: removeTS c.entries key }

/-- The `try:` block of the per-ticker current-filings supplement in
`EdgarAdapter.list_available` (source lines 232–247): consult the TTL
cache with `allow_stale=True`; on a fresh or stale hit use the cached
list with no upstream call; on a miss perform the upstream fetch
(`get_current_filings` filtered to the company's CIK, abstracted as
`upstream`) and store its result.  The `Bool` records whether the
upstream call was made; an upstream exception propagates out of the
block. -/
def EdgarAdapter.supplementTry (cache : TTLCache (List Filing)) (key : String)
    (now : Nat) (upstream : Except String (List Filing)) :
    Except String ((List Filing × Bool) × TTLCache (List Filing)) :=
  let r := cache.get key now true
  let cachedResult := r.1.1
  let isFresh := r.1.2
  let cache1 := r.2
  if isFresh || cachedResult.isSome then
    .ok ((cachedResult.getD [], false), cache1)
  else
    match upstream with
    | .ok filings => .ok ((filings, true), cache1.set key filings now)
    | .error e => .error e

/-- The `try/except` around the supplement (source lines 232–261): any
exception — `ReadTimeout`, `TimeoutException`, or any other — is logged
and swallowed, and `current_for_company` falls back to `[]`.  The cache
state reached before the exception is kept. -/
def EdgarAdapter.supplementSafe (cache : TTLCache (List Filing)) (key : String)
    (now : Nat) (upstream : Except String (List Filing)) :
    (List Filing × Bool) × TTLCache (List Filing) :=
  match EdgarAdapter.supplementTry cache key now upstream with
  | .ok r => r
  | .error _ => (([], false), (cache.get key now true).2)

/-- `CORE_FORM_TYPES` (source lines 61–72). -/
def CORE_FORM_TYPES : List String :=
  ["10-K", "10-K/A", "10-Q", "10-Q/A",
   "20-F", "20-F/A", "6-K", "6-K/A",
   "8-K", "8-K/A",
   "S-1", "S-1/A", "S-3", "S-3/A", "S-4", "S-4/A"]

/-- The accession-number merge loop (source lines 292–297): starting
from the historical result list and the accessions already `seen`,
append each current filing whose accession number was not seen yet. -/
def addCurrent : List Filing → List String → List Filing → List Filing
  | [], _, acc => acc
  | f :: rest, seen, acc =>
    if seen.contains f.accession_number then addCurrent rest seen acc
    else addCurrent rest (f.accession_number :: seen) (acc ++ [f])

/-- The `CORE` filter (source lines 299–301). -/
def coreFilter (form_type : String) (l : List Filing) : List Filing :=
  if form_type = "CORE" then l.filter (fun f => CORE_FORM_TYPES.contains f.form_type)
  else l

/-- `result.sort(key=lambda x: x.filing_date, reverse=True)`: a stable
sort descending by filing date (Python's list sort is a stable
mergesort, as is `List.mergeSort`). -/
def sortByDateDesc (l : List Filing) : List Filing :=
  l.mergeSort (fun a b => strLe b.filing_date a.filing_date)

/-- The date-deduplication loop (source lines 306–315): keep the first
entry seen for each filing date. -/
def dedupByDate : List Filing → List String → List Filing
  | [], _ => []
  | f :: rest, seen =>
    if seen.contains f.filing_date then dedupByDate rest seen
    else f :: dedupByDate rest (f.filing_date :: seen)

/-- The merged-and-sorted candidate list of the per-ticker branch of
`EdgarAdapter.list_available`, before date deduplication: historical
filings, plus current filings not already present by accession number,
`CORE`-filtered, sorted by filing date descending.  `historical` and
`current` are the two provider result lists already converted to domain
`Filing` records (the `to_domain_filing` conversion normalizes the
provider's date and ticker shapes; the claims checked here quantify
over arbitrary converted records). -/
def EdgarAdapter.mergedSorted (form_type : String)
    (historical current : List Filing) : List Filing :=
  sortByDateDesc (coreFilter form_type
    (addCurrent current (historical.map (fun f => f.accession_number)) historical))

/-- The full per-ticker result of `EdgarAdapter.list_available`
(source lines 284–315). -/
def EdgarAdapter.listAvailableTicker (form_type : String)
    (historical current : List Filing) : List Filing :=
  dedupByDate (EdgarAdapter.mergedSorted form_type historical current) []

/-- Per-ticker `list_available` including the supplemental-feed
acquisition: run the guarded supplement step, then merge with the
historical list.  Returns the filing list and the final TTL-cache
state. -/
def EdgarAdapter.listAvailableTickerFull (cache : TTLCache (List Filing))
    (key : String) (now : Nat) (form_type : String) (historical : List Filing)
    (upstream : Except String (List Filing)) :
    List Filing × TTLCache (List Filing) :=
  let r := EdgarAdapter.supplementSafe cache key now upstream
  (EdgarAdapter.listAvailableTicker form_type historical r.1.1, r.2)

/-- `EdgarAdapter.get_latest` (source lines 333–357) applied to the
candidate list `list_available` produced: error (`none`, the raised
`ValueError`) on an empty list; with a date, keep filings with
`filing_date >= date` and return the last of them (the oldest, the
list being sorted newest-first), erroring if none qualify; with no
date, return the first (most recent) entry. -/
def EdgarAdapter.getLatest (filings : List Filing) (dateOpt : Option String) :
    Option Filing :=
  if filings.isEmpty then none
  else
    match dateOpt with
    | some d => (filings.filter (fun f => strLe d f.filing_date)).getLast?
    | none => filings.head?

/-! ## Concrete inputs for the closed instances below -/

/-- A cache rooted at directory `cache`. -/
def sampleCache : FilesystemCache := ⟨["cache"]⟩

/-- An empty filesystem. -/
def fsEmpty : FS := ⟨[], []⟩

/-- The filesystem state after a single path derivation under
`sampleCache` for `TSLA`/`10-K` starting from `fsEmpty`: the directory
chain exists, no files. -/
def fsAfterGet : FS :=
  ⟨[["cache"], ["cache", "TSLA"], ["cache", "TSLA", "10-K"]], []⟩

/-- A sample resolved filing. -/
def sampleFiling : Filing :=
  { ticker := "TSLA", form_type := "10-K", filing_date := "2024-01-30",
    accession_number := "0001628280-24-002390", sec_url := "https://sec.gov/f1" }

/-- Filings with the three dates of the date-filter selection example. -/
def exFiling2021 : Filing :=
  { ticker := "TSLA", form_type := "10-K", filing_date := "2021-01-01",
    accession_number := "acc-2021", sec_url := "https://sec.gov/a" }

def exFiling2022 : Filing :=
  { ticker := "TSLA", form_type := "10-K", filing_date := "2022-06-15",
    accession_number := "acc-2022", sec_url := "https://sec.gov/b" }

def exFiling2023 : Filing :=
  { ticker := "TSLA", form_type := "10-K", filing_date := "2023-03-01",
    accession_number := "acc-2023", sec_url := "https://sec.gov/c" }

/-- The candidate list as `list_available` would produce it: filing-date
descending. -/
def exFilings : List Filing := [exFiling2023, exFiling2022, exFiling2021]

/-- `ugrep` output with five matching lines and no context lines. -/
def out5 : String := "1:risk\n2:risk\n3:risk\n4:risk\n5:risk"

/-- A freshness cache with the production thresholds (90 s fresh,
24 h stale-acceptable) holding one entry written at second 1000. -/
def ttlSample : TTLCache (List Filing) :=
  ⟨90, 86400, [("current_filings::TSLA", [sampleFiling], 1000)]⟩

/-- A freshness cache with no entries. -/
def ttlEmpty : TTLCache (List Filing) := ⟨90, 86400, []⟩

/-- Filesystem state after fetching content `"x\ny"` for `sampleFiling`
into an empty cache. -/
def fsRun1 : FS :=
  ⟨[["cache"], ["cache", "TSLA"], ["cache", "TSLA", "10-K"]],
   [(["cache", "TSLA", "10-K", "2024-01-30.txt"], "x\ny")]⟩

/-- Result record of that first (cache-miss) fetch. -/
def outRun1 : FilingContentOut :=
  { filing := sampleFiling, content := "x\ny", format := "text",
    path := ["cache", "TSLA", "10-K", "2024-01-30.txt"],
    size_bytes := 3, total_lines := 2 }

/-- Result record of the identical second (cache-hit) fetch. -/
def outRun2 : FilingContentOut :=
  { filing := sampleFiling, content := "x\ny", format := "text",
    path := ["cache", "TSLA", "10-K", "2024-01-30.txt"],
    size_bytes := 3, total_lines := 1 }

/-! ## Order facts about the embedded string comparison -/

theorem charListLt_cons_iff (x y : Char) (as bs : List Char) :
    charListLt (x :: as) (y :: bs) = true ↔
      x < y ∨ (x = y ∧ charListLt as bs = true) := by
  by_cases hxy : x < y
  · simp [charListLt, hxy]
  · by_cases hyx : y < x
    · have hne : x ≠ y := fun h => absurd (h ▸ hyx) (lt_irrefl x)
      simp [charListLt, hxy, hyx, hne]
    · have heq : x = y := le_antisymm (not_lt.mp hyx) (not_lt.mp hxy)
      simp [charListLt, hxy, hyx, heq]

theorem charListLt_irrefl : ∀ l : List Char, charListLt l l = false := by
  intro l
  induction l with
  | nil => rfl
  | cons c rest ih => simp [charListLt, ih]

theorem charListLt_asymm :
    ∀ a b : List Char, charListLt a b = true → charListLt b a = false := by
  intro a
  induction a with
  | nil =>
    intro b h
    cases b with
    | nil => exact Bool.noConfusion h
    | cons d bs => rfl
  | cons c as ih =>
    intro b h
    cases b with
    | nil => exact Bool.noConfusion h
    | cons d bs =>
      rcases (charListLt_cons_iff c d as bs).mp h with hlt | ⟨heq, hrec⟩
      · have h1 : ¬ d < c := fun hh => absurd (lt_trans hlt hh) (lt_irrefl c)
        have h2 : d ≠ c := fun hh => absurd (hh ▸ hlt) (lt_irrefl d)
        rcases Bool.eq_false_or_eq_true (charListLt (d :: bs) (c :: as)) with ht | hf
        · rcases (charListLt_cons_iff d c bs as).mp ht with h' | ⟨h', _⟩
          · exact absurd h' h1
          · exact absurd h' h2
        · exact hf
      · subst heq
        rcases Bool.eq_false_or_eq_true (charListLt (c :: bs) (c :: as)) with ht | hf
        · rcases (charListLt_cons_iff c c bs as).mp ht with h' | ⟨_, h'⟩
          · exact absurd h' (lt_irrefl c)
          · exact absurd h' (by simp [ih bs hrec])
        · exact hf

theorem charListLt_connex :
    ∀ a b : List Char, charListLt a b = false → charListLt b a = false → a = b := by
  intro a
  induction a with
  | nil =>
    intro b h1 _
    cases b with
    | nil => rfl
    | cons d bs => exact Bool.noConfusion h1
  | cons c as ih =>
    intro b h1 h2
    cases b with
    | nil => exact Bool.noConfusion h2
    | cons d bs =>
      have hcd : ¬ c < d := fun h => by
        rw [(charListLt_cons_iff c d as bs).mpr (Or.inl h)] at h1
        exact Bool.noConfusion h1
      have hdc : ¬ d < c := fun h => by
        rw [(charListLt_cons_iff d c bs as).mpr (Or.inl h)] at h2
        exact Bool.noConfusion h2
      have heq : c = d := le_antisymm (not_lt.mp hdc) (not_lt.mp hcd)
      subst heq
      have hr1 : charListLt as bs = false := by
        rcases Bool.eq_false_or_eq_true (charListLt as bs) with ht | hf
        · rw [(charListLt_cons_iff c c as bs).mpr (Or.inr ⟨rfl, ht⟩)] at h1
          exact Bool.noConfusion h1
        · exact hf
      have hr2 : charListLt bs as = false := by
        rcases Bool.eq_false_or_eq_true (charListLt bs as) with ht | hf
        · rw [(charListLt_cons_iff c c bs as).mpr (Or.inr ⟨rfl, ht⟩)] at h2
          exact Bool.noConfusion h2
        · exact hf
      rw [ih bs hr1 hr2]

theorem charListLt_trans :
    ∀ a b c : List Char, charListLt a b = true → charListLt b c = true →
      charListLt a c = true := by
  intro a
  induction a with
  | nil =>
    intro b c h1 h2
    cases b with
    | nil => exact Bool.noConfusion h1
    | cons y bs =>
      cases c with
      | nil => exact Bool.noConfusion h2
      | cons z cs => rfl
  | cons x as ih =>
    intro b c h1 h2
    cases b with
    | nil => exact Bool.noConfusion h1
    | cons y bs =>
      cases c with
      | nil => exact Bool.noConfusion h2
      | cons z cs =>
        rcases (charListLt_cons_iff x y as bs).mp h1 with hxy | ⟨hxy, hr1⟩ <;>
          rcases (charListLt_cons_iff y z bs cs).mp h2 with hyz | ⟨hyz, hr2⟩
        · exact (charListLt_cons_iff x z as cs).mpr (Or.inl (lt_trans hxy hyz))
        · exact (charListLt_cons_iff x z as cs).mpr (Or.inl (hyz ▸ hxy))
        · exact (charListLt_cons_iff x z as cs).mpr (Or.inl (hxy ▸ hyz))
        · exact (charListLt_cons_iff x z as cs).mpr
            (Or.inr ⟨hxy.trans hyz, ih bs cs hr1 hr2⟩)

/-- Strings with equal character data are equal. -/
theorem strDataInj {a b : String} (h : a.data = b.data) : a = b := by
  cases a
  cases b
  exact congrArg String.mk h

theorem strLe_refl (s : String) : strLe s s = true := by
  simp [strLe, strLt, charListLt_irrefl]

theorem strLe_total (a b : String) : (strLe a b || strLe b a) = true := by
  rcases Bool.eq_false_or_eq_true (charListLt b.data a.data) with ht | hf
  · simp [strLe, strLt, ht, charListLt_asymm _ _ ht]
  · simp [strLe, strLt, hf]

theorem strLe_trans {a b c : String} (h1 : strLe a b = true) (h2 : strLe b c = true) :
    strLe a c = true := by
  simp only [strLe, strLt, Bool.not_eq_true'] at h1 h2 ⊢
  rcases Bool.eq_false_or_eq_true (charListLt c.data a.data) with hca | hca
  · exfalso
    rcases Bool.eq_false_or_eq_true (charListLt a.data b.data) with hab | hab
    · rcases Bool.eq_false_or_eq_true (charListLt b.data c.data) with hbc | hbc
      · have hac := charListLt_trans _ _ _ hab hbc
        rw [charListLt_asymm _ _ hac] at hca
        exact Bool.noConfusion hca
      · have hbc' : b.data = c.data := charListLt_connex _ _ hbc h2
        rw [hbc'] at hab
        rw [charListLt_asymm _ _ hab] at hca
        exact Bool.noConfusion hca
    · have hab' : a.data = b.data := charListLt_connex _ _ hab h1
      rw [hab'] at hca
      rw [h2] at hca
      exact Bool.noConfusion hca
  · exact hca

theorem strLt_of_le_of_ne {a b : String} (h : strLe a b = true) (hne : a ≠ b) :
    strLt a b = true := by
  simp only [strLe, strLt, Bool.not_eq_true'] at h ⊢
  rcases Bool.eq_false_or_eq_true (charListLt a.data b.data) with ht | hf
  · exact ht
  · exact absurd (strDataInj (charListLt_connex _ _ hf h)) hne

/-! ## Structure of the derived cache path -/

theorem getPath_eq (c : FilesystemCache) (fs : FS) (t f d fmt : String) :
    c.getPath fs t f d fmt = (extFor fmt).map (fun ext =>
      (fs.mkdirP (c.cache_dir ++ [pyUpper t, pyUpper f]),
       c.cache_dir ++ [pyUpper t, pyUpper f, d ++ ext])) := by
  unfold FilesystemCache.getPath FilesystemCache.ensureDir
  cases extFor fmt with
  | none => rfl
  | some e => simp

theorem getPath_some {c : FilesystemCache} {fs : FS} {t f d fmt e : String}
    (he : extFor fmt = some e) :
    c.getPath fs t f d fmt =
      some (fs.mkdirP (c.cache_dir ++ [pyUpper t, pyUpper f]),
            c.cache_dir ++ [pyUpper t, pyUpper f, d ++ e]) := by
  rw [getPath_eq, he]
  rfl

theorem mem_foldl_addDir (qs : List (List String)) (ds : List (List String))
    (x : List String) (hx : x ∈ ds) : x ∈ qs.foldl addDir ds := by
  induction qs generalizing ds with
  | nil => exact hx
  | cons q rest ih =>
    refine ih _ ?_
    unfold addDir
    split
    · exact hx
    · exact List.mem_append_left _ hx

theorem mem_dirs_mkdirP (fs : FS) (p q : List String) (h : q ∈ fs.dirs) :
    q ∈ (fs.mkdirP p).dirs :=
  mem_foldl_addDir _ _ _ h

theorem getPath_files {c : FilesystemCache} {fs fs' : FS} {t f d fmt : String}
    {p : List String} (h : c.getPath fs t f d fmt = some (fs', p)) :
    fs'.files = fs.files := by
  cases he : extFor fmt with
  | none => rw [getPath_eq, he] at h; exact absurd h (by simp)
  | some e =>
    rw [getPath_some he] at h
    injection h with h'
    injection h' with h1 h2
    rw [← h1]
    rfl

theorem getPath_dirs {c : FilesystemCache} {fs fs' : FS} {t f d fmt : String}
    {p : List String} (h : c.getPath fs t f d fmt = some (fs', p)) :
    ∀ q ∈ fs.dirs, q ∈ fs'.dirs := by
  cases he : extFor fmt with
  | none => rw [getPath_eq, he] at h; exact absurd h (by simp)
  | some e =>
    rw [getPath_some he] at h
    injection h with h'
    injection h' with h1 h2
    rw [← h1]
    exact fun q hq => mem_dirs_mkdirP _ _ _ hq

theorem getPath_snd {c : FilesystemCache} {fs fs' : FS} {t f d fmt : String}
    {p : List String} (h : c.getPath fs t f d fmt = some (fs', p)) :
    c.pathFor t f d fmt = some p := by
  cases he : extFor fmt with
  | none => rw [getPath_eq, he] at h; exact absurd h (by simp)
  | some e =>
    rw [getPath_some he] at h
    injection h with h'
    injection h' with h1 h2
    unfold FilesystemCache.pathFor
    rw [he, ← h2]
    rfl

theorem findFile_writeFile (fs : FS) (p : List String) (s : String) :
    findFile (fs.writeFile p s).files p = some s := by
  simp [FS.writeFile, findFile]

/-! ## C1 — cache path determinism -/

/-- **C1.** For every ticker, form type, filing date and format in
{text, markdown, html}, the cache path derivation is deterministic: two
calls with the same inputs, under any casing of ticker and form type
and from any filesystem state, yield the identical path
`{cache_root}/{TICKER}/{FORM_TYPE}/{filing_date}{ext}` with ticker and
form type upper-cased and the extension given by the fixed mapping
text → `.txt`, markdown → `.md`, html → `.html`. -/
theorem cachePath_deterministic (c : FilesystemCache) (fs1 fs2 : FS)
    (t1 t2 f1 f2 d fmt : String)
    (ht : pyUpper t1 = pyUpper t2) (hf : pyUpper f1 = pyUpper f2)
    (hfmt : fmt = "text" ∨ fmt = "markdown" ∨ fmt = "html") :
    (c.getPath fs1 t1 f1 d fmt).map Prod.snd = (c.getPath fs2 t2 f2 d fmt).map Prod.snd ∧
    (c.getPath fs1 t1 f1 d fmt).map Prod.snd =
      some (c.cache_dir ++ [pyUpper t1, pyUpper f1,
        d ++ (if fmt = "text" then ".txt"
              else if fmt = "markdown" then ".md" else ".html")]) := by
  rw [getPath_eq, getPath_eq, ← ht, ← hf]
  rcases hfmt with h | h | h <;> subst h <;> exact ⟨rfl, rfl⟩

/-- Witness for C1: the lowercase and mixed-case spellings of
`TSLA`/`10-K` with format `text` resolve, from two different filesystem
states, to the same concrete path `cache/TSLA/10-K/2024-01-30.txt`. -/
theorem cachePath_deterministic_witness :
    pyUpper "tsla" = pyUpper "TsLa" ∧ pyUpper "10-k" = pyUpper "10-K" ∧
    (("text" : String) = "text" ∨ ("text" : String) = "markdown" ∨
      ("text" : String) = "html") ∧
    (sampleCache.getPath fsEmpty "tsla" "10-k" "2024-01-30" "text").map Prod.snd =
      (sampleCache.getPath fsAfterGet "TsLa" "10-K" "2024-01-30" "text").map Prod.snd ∧
    (sampleCache.getPath fsEmpty "tsla" "10-k" "2024-01-30" "text").map Prod.snd =
      some ["cache", "TSLA", "10-K", "2024-01-30.txt"] := by
  have h := cachePath_deterministic sampleCache fsEmpty fsAfterGet "tsla" "TsLa"
    "10-k" "10-K" "2024-01-30" "text" (by decide) (by decide) (Or.inl rfl)
  refine ⟨by decide, by decide, Or.inl rfl, h.1, ?_⟩
  rw [h.2]
  decide

/-! ## C4 — the path derivation is not I/O-free -/

/-- **C4, counterexample.** The claim says the path derivation performs
no I/O and leaves the filesystem unchanged, and that consequently the
cache-existence check (`get`/`exists`) never mutates the filesystem.
On the code this is false: `_get_path` calls `_ensure_dir`, which
performs `mkdir(parents=True, exist_ok=True)`.  Concretely, running
`get` for (`TSLA`, `10-K`, `2023-01-01`, `text`) against an empty
filesystem returns a *changed* filesystem in which the directory chain
`cache/`, `cache/TSLA/`, `cache/TSLA/10-K/` has been created. -/
theorem cacheGet_mutates_fs :
    FilesystemCache.get sampleCache fsEmpty "TSLA" "10-K" "2023-01-01" "text"
        = some (fsAfterGet, none) ∧ fsAfterGet ≠ fsEmpty :=
  ⟨by decide, by decide⟩

/-- **C4 (amended).** The path derivation fails (with the `KeyError`
surfaced for an unrecognized format) before touching the filesystem
when the format is not one of the three recognized renderings; for a
recognized format it is *not* I/O-free: it creates the ticker/form
directory chain (`mkdir -p` semantics), never removing anything.
Consequently the cache-existence check (`get`) may create directories
but never creates, modifies, or deletes files. -/
theorem cachePath_effects (c : FilesystemCache) (fs : FS) (t f d fmt : String) :
    (extFor fmt = none → c.getPath fs t f d fmt = none) ∧
    (∀ fs' p, c.getPath fs t f d fmt = some (fs', p) →
        fs'.files = fs.files ∧ ∀ q ∈ fs.dirs, q ∈ fs'.dirs) ∧
    (∀ fs' r, FilesystemCache.get c fs t f d fmt = some (fs', r) →
        fs'.files = fs.files) := by
  refine ⟨?_, ?_, ?_⟩
  · intro h
    rw [getPath_eq, h]
    rfl
  · intro fs' p hp
    exact ⟨getPath_files hp, getPath_dirs hp⟩
  · intro fs' r hr
    unfold FilesystemCache.get at hr
    cases hg : c.getPath fs t f d fmt with
    | none => rw [hg] at hr; exact absurd hr (by simp)
    | some pr =>
      rw [hg] at hr
      simp only [Option.map_some'] at hr
      injection hr with hr'
      have h1 : pr.1 = fs' := congrArg Prod.fst hr'
      rw [← h1]
      exact getPath_files hg

/-- Witness for C4 (amended): the unknown format `pdf` fails with no
filesystem access, and the concrete `get` call of the counterexample
leaves the file map unchanged. -/
theorem cachePath_effects_witness :
    sampleCache.getPath fsEmpty "TSLA" "10-K" "2023-01-01" "pdf" = none ∧
    fsAfterGet.files = fsEmpty.files :=
  ⟨(cachePath_effects sampleCache fsEmpty "TSLA" "10-K" "2023-01-01" "pdf").1 rfl,
   (cachePath_effects sampleCache fsEmpty "TSLA" "10-K" "2023-01-01" "text").2.2
     fsAfterGet none (by decide)⟩

/-! ## C9 — save/read round trip -/

/-- **C9.** For every cache key and every content string: when `save`
succeeds, reading the file at the returned path yields exactly the
saved content. -/
theorem save_roundtrip (c : FilesystemCache) (fs : FS) (filing : Filing)
    (content fmt : String) (fs' : FS) (p : List String)
    (h : c.save fs filing content fmt = some (fs', p)) :
    findFile fs'.files p = some content := by
  unfold FilesystemCache.save at h
  cases hg : c.getPath fs filing.ticker filing.form_type filing.filing_date fmt with
  | none => rw [hg] at h; exact absurd h (by simp)
  | some pr =>
    rw [hg] at h
    simp only [Option.map_some'] at h
    injection h with h'
    have h1 : pr.1.writeFile pr.2 content = fs' := congrArg Prod.fst h'
    have h2 : pr.2 = p := congrArg Prod.snd h'
    rw [← h1, ← h2]
    exact findFile_writeFile _ _ _

/-- Witness for C9: saving `"hello\nworld"` under the sample key and
reading the returned path back gives exactly `"hello\nworld"`. -/
theorem save_roundtrip_witness :
    findFile
        (FS.mk [["cache"], ["cache", "TSLA"], ["cache", "TSLA", "10-K"]]
          [(["cache", "TSLA", "10-K", "2024-01-30.txt"], "hello\nworld")]).files
        ["cache", "TSLA", "10-K", "2024-01-30.txt"] = some "hello\nworld" :=
  save_roundtrip sampleCache fsEmpty sampleFiling "hello\nworld" "text" _ _ (by decide)

/-! ## C2 — the orchestrator fetches iff forced or not cached -/

theorem mkdirP_files (fs : FS) (p : List String) : (fs.mkdirP p).files = fs.files :=
  rfl

theorem save_path {c : FilesystemCache} {fs : FS} {filing : Filing}
    {content fmt : String} {fs' : FS} {p : List String}
    (h : c.save fs filing content fmt = some (fs', p)) :
    c.pathFor filing.ticker filing.form_type filing.filing_date fmt = some p := by
  unfold FilesystemCache.save at h
  cases hg : c.getPath fs filing.ticker filing.form_type filing.filing_date fmt with
  | none => rw [hg] at h; exact absurd h (by simp)
  | some pr =>
    rw [hg] at h
    simp only [Option.map_some'] at h
    injection h with h'
    have h2 : pr.2 = p := congrArg Prod.snd h'
    exact h2 ▸ getPath_snd hg

/-- Everything the download branch of `execute` establishes. -/
theorem download_eq {c : FilesystemCache} {fs : FS} {filing : Filing}
    {fetched fmt : String} {fs' : FS} {res : FilingContentOut} {df : Bool}
    (h : FetchFilingService.download c fs filing fetched fmt = some (fs', res, df)) :
    df = true ∧ res.content = fetched ∧
    res.total_lines = countNewlines fetched + 1 ∧
    c.pathFor filing.ticker filing.form_type filing.filing_date fmt = some res.path ∧
    findFile fs'.files res.path = some fetched := by
  unfold FetchFilingService.download at h
  cases hs : c.save fs filing fetched fmt with
  | none => rw [hs] at h; exact absurd h (by simp)
  | some pr =>
    rw [hs] at h
    simp only [Option.map_some', Option.some.injEq, Prod.mk.injEq] at h
    obtain ⟨hfs, hres, hdf⟩ := h
    refine ⟨hdf.symm, ?_, ?_, ?_, ?_⟩
    · rw [← hres]
    · rw [← hres]
    · rw [← hres]
      exact save_path hs
    · rw [← hres, ← hfs]
      exact save_roundtrip _ _ _ _ _ _ _ hs

/-- The boolean the `exists` check reports is exactly whether `get`
returns a path. -/
theorem get_existsB (c : FilesystemCache) (fs : FS) (t f d fmt : String) :
    (c.existsB fs t f d fmt).map Prod.snd =
      (FilesystemCache.get c fs t f d fmt).map (fun r => r.2.isSome) := by
  unfold FilesystemCache.get FilesystemCache.existsB
  cases c.getPath fs t f d fmt with
  | none => rfl
  | some pr =>
    simp only [Option.map_some']
    cases pr.1.pathExists pr.2 <;> simp

/-- A successful `get` comes from a successful `_get_path`, and returns
its path exactly when something exists there. -/
theorem get_getPath {c : FilesystemCache} {fs : FS} {t f d fmt : String}
    {fs1 : FS} {op : Option (List String)}
    (h : FilesystemCache.get c fs t f d fmt = some (fs1, op)) :
    ∃ p0, c.getPath fs t f d fmt = some (fs1, p0) ∧
      op = (if fs1.pathExists p0 then some p0 else none) := by
  unfold FilesystemCache.get at h
  cases hg : c.getPath fs t f d fmt with
  | none => rw [hg] at h; exact absurd h (by simp)
  | some pr =>
    rw [hg] at h
    simp only [Option.map_some', Option.some.injEq, Prod.mk.injEq] at h
    obtain ⟨h1, h2⟩ := h
    refine ⟨pr.2, ?_, ?_⟩
    · rw [← h1]
    · rw [← h2, h1]

/-- On a cache hit (no force), `execute` returns the cached file's
content and path, with the `wc -l` line count and no fetch. -/
theorem execute_eq_hit {c : FilesystemCache} {fs : FS} {filing : Filing}
    {fetched ticker form_type fmt : String} {fs1 : FS} {p : List String}
    {content : String}
    (hg : FilesystemCache.get c fs ticker form_type filing.filing_date fmt
          = some (fs1, some p))
    (hf : findFile fs1.files p = some content) :
    FetchFilingService.execute c fs filing fetched ticker form_type fmt false =
      some (fs1,
        { filing := filing, content := content, format := fmt, path := p,
          size_bytes := utf8Length content,
          total_lines := countNewlines content }, false) := by
  unfold FetchFilingService.execute
  rw [if_neg Bool.false_ne_true, hg]
  dsimp only
  rw [hf]

/-- On a cache miss (no force), `execute` is the download branch run
from the post-`get` filesystem. -/
theorem execute_eq_miss {c : FilesystemCache} {fs : FS} {filing : Filing}
    {fetched ticker form_type fmt : String} {fs1 : FS}
    (hg : FilesystemCache.get c fs ticker form_type filing.filing_date fmt
          = some (fs1, none)) :
    FetchFilingService.execute c fs filing fetched ticker form_type fmt false =
      FetchFilingService.download c fs1 filing fetched fmt := by
  unfold FetchFilingService.execute
  rw [if_neg Bool.false_ne_true, hg]

/-- With the force flag, `execute` is the download branch (the cache is
not consulted). -/
theorem execute_eq_force (c : FilesystemCache) (fs : FS) (filing : Filing)
    (fetched ticker form_type fmt : String) :
    FetchFilingService.execute c fs filing fetched ticker form_type fmt true =
      FetchFilingService.download c fs filing fetched fmt := by
  unfold FetchFilingService.execute
  rw [if_pos rfl]

/-- **C2.** For every fetch-filing request, the orchestrator performs
the upstream download (`fetcher.fetch` followed by a cache save that
overwrites the file at the derived path) if and only if the
force-refetch flag is set or no cached artifact exists at the derived
path for the resolved filing's date and requested format; when a cached
artifact exists and force-refetch is not set, no upstream fetch occurs,
the existing path is returned, and no file changes. -/
theorem execute_fetch_iff (c : FilesystemCache) (fs : FS) (filing : Filing)
    (fetched ticker form_type fmt : String) (force : Bool)
    (fs' : FS) (res : FilingContentOut) (didFetch : Bool)
    (h : FetchFilingService.execute c fs filing fetched ticker form_type fmt force
          = some (fs', res, didFetch)) :
    didFetch = (force ||
      !(((c.existsB fs ticker form_type filing.filing_date fmt).map Prod.snd).getD false)) ∧
    (didFetch = true →
      c.pathFor filing.ticker filing.form_type filing.filing_date fmt = some res.path ∧
      findFile fs'.files res.path = some fetched ∧
      res.content = fetched) ∧
    (didFetch = false →
      c.pathFor ticker form_type filing.filing_date fmt = some res.path ∧
      fs'.files = fs.files) := by
  cases force with
  | true =>
    rw [execute_eq_force] at h
    obtain ⟨hdf, hcontent, _, hpath, hfind⟩ := download_eq h
    subst hdf
    exact ⟨rfl, fun _ => ⟨hpath, hfind, hcontent⟩, fun hc => Bool.noConfusion hc⟩
  | false =>
    cases hg : FilesystemCache.get c fs ticker form_type filing.filing_date fmt with
    | none =>
      unfold FetchFilingService.execute at h
      rw [if_neg Bool.false_ne_true, hg] at h
      exact absurd h (by simp)
    | some r =>
      obtain ⟨fs1, op⟩ := r
      cases op with
      | some p =>
        cases hf : findFile fs1.files p with
        | none =>
          unfold FetchFilingService.execute at h
          rw [if_neg Bool.false_ne_true, hg] at h
          dsimp only at h
          rw [hf] at h
          exact absurd h (by simp)
        | some content =>
          rw [execute_eq_hit hg hf] at h
          simp only [Option.some.injEq, Prod.mk.injEq] at h
          obtain ⟨hfs, hres, hdf⟩ := h
          obtain ⟨p0, hgp, hop⟩ := get_getPath hg
          have hex : fs1.pathExists p0 = true := by
            rcases Bool.eq_false_or_eq_true (fs1.pathExists p0) with ht | hfalse
            · exact ht
            · rw [hfalse] at hop
              exact absurd hop (by simp)
          have hp0 : p0 = p := by
            rw [hex] at hop
            simp only [if_true] at hop
            exact (Option.some.inj hop).symm
          subst hp0
          refine ⟨?_, ?_, ?_⟩
          · rw [← hdf, get_existsB, hg]
            rfl
          · intro hc
            rw [← hdf] at hc
            exact Bool.noConfusion hc
          · intro _
            refine ⟨?_, ?_⟩
            · rw [← hres]
              exact getPath_snd hgp
            · rw [← hfs]
              exact getPath_files hgp
      | none =>
        rw [execute_eq_miss hg] at h
        obtain ⟨hdf, hcontent, _, hpath, hfind⟩ := download_eq h
        subst hdf
        refine ⟨?_, fun _ => ⟨hpath, hfind, hcontent⟩, fun hc => Bool.noConfusion hc⟩
        rw [get_existsB, hg]
        rfl

/-- Witness for C2: against an empty cache the first fetch of
`sampleFiling` downloads (the flag equals
`force || not cached` = `false || not false = true`), writes the file at
the derived path, and returns the fetched bytes. -/
theorem execute_fetch_iff_witness :
    (true : Bool) = (false ||
      !(((sampleCache.existsB fsEmpty "TSLA" "10-K" "2024-01-30" "text").map
          Prod.snd).getD false)) ∧
    findFile fsRun1.files outRun1.path = some "x\ny" ∧
    outRun1.content = "x\ny" := by
  have h := execute_fetch_iff sampleCache fsEmpty sampleFiling "x\ny" "TSLA" "10-K"
    "text" false fsRun1 outRun1 true (by decide)
  exact ⟨h.1, (h.2.1 rfl).2.1, (h.2.1 rfl).2.2⟩

/-! ## C10 — the miss/hit line-count discrepancy -/

/-- **C10.** The orchestrator computes the reported total line count
differently on its two branches: a cache miss reports
`content.count('\n') + 1` while a cache hit reports the `wc -l` newline
count of the file; hence two consecutive identical fetch calls — the
first a miss (download flag `true`), the second therefore a hit —
report totals that differ by exactly one, for every content. -/
theorem execute_linecount_gap (c : FilesystemCache) (fs : FS) (filing : Filing)
    (fetched ticker form_type fmt : String)
    (fs1 fs2 : FS) (r1 r2 : FilingContentOut) (b2 : Bool)
    (htick : pyUpper filing.ticker = pyUpper ticker)
    (hform : pyUpper filing.form_type = pyUpper form_type)
    (h1 : FetchFilingService.execute c fs filing fetched ticker form_type fmt false
          = some (fs1, r1, true))
    (h2 : FetchFilingService.execute c fs1 filing fetched ticker form_type fmt false
          = some (fs2, r2, b2)) :
    b2 = false ∧
    r1.total_lines = countNewlines fetched + 1 ∧
    r2.total_lines = countNewlines fetched ∧
    r1.total_lines = r2.total_lines + 1 := by
  -- run 1 took the download branch (the hit branch reports `false`)
  have hdl : ∃ g : FS, FetchFilingService.download c g filing fetched fmt
      = some (fs1, r1, true) := by
    cases hg : FilesystemCache.get c fs ticker form_type filing.filing_date fmt with
    | none =>
      unfold FetchFilingService.execute at h1
      rw [if_neg Bool.false_ne_true, hg] at h1
      exact absurd h1 (by simp)
    | some r =>
      obtain ⟨g1, op⟩ := r
      cases op with
      | some p =>
        cases hf : findFile g1.files p with
        | none =>
          unfold FetchFilingService.execute at h1
          rw [if_neg Bool.false_ne_true, hg] at h1
          dsimp only at h1
          rw [hf] at h1
          exact absurd h1 (by simp)
        | some content =>
          rw [execute_eq_hit hg hf] at h1
          simp only [Option.some.injEq, Prod.mk.injEq] at h1
          exact absurd h1.2.2 (by simp)
      | none =>
        rw [execute_eq_miss hg] at h1
        exact ⟨g1, h1⟩
  obtain ⟨g, hg1⟩ := hdl
  obtain ⟨_, _, htl1, hpath1, hfind1⟩ := download_eq hg1
  -- the format is one of the recognized ones
  cases hext : extFor fmt with
  | none =>
    unfold FilesystemCache.pathFor at hpath1
    rw [hext] at hpath1
    exact absurd hpath1 (by simp)
  | some e =>
    -- the derived path of the request args equals the saved path
    have hpeq : c.cache_dir ++ [pyUpper ticker, pyUpper form_type,
        filing.filing_date ++ e] = r1.path := by
      unfold FilesystemCache.pathFor at hpath1
      rw [hext] at hpath1
      simp only [Option.map_some', Option.some.injEq] at hpath1
      rw [← htick, ← hform]
      exact hpath1
    -- run 2 finds the file `get` points at
    have hget2 : FilesystemCache.get c fs1 ticker form_type filing.filing_date fmt
        = some (fs1.mkdirP (c.cache_dir ++ [pyUpper ticker, pyUpper form_type]),
                some r1.path) := by
      unfold FilesystemCache.get
      rw [getPath_some hext]
      simp only [Option.map_some', Option.some.injEq, Prod.mk.injEq]
      have hex : (fs1.mkdirP (c.cache_dir ++ [pyUpper ticker, pyUpper form_type])).pathExists
          (c.cache_dir ++ [pyUpper ticker, pyUpper form_type,
            filing.filing_date ++ e]) = true := by
        unfold FS.pathExists
        rw [mkdirP_files, hpeq, hfind1]
        rfl
      rw [hex]
      simp [hpeq]
    have hfind2 : findFile (fs1.mkdirP (c.cache_dir ++ [pyUpper ticker,
        pyUpper form_type])).files r1.path = some fetched := by
      rw [mkdirP_files]
      exact hfind1
    rw [execute_eq_hit hget2 hfind2] at h2
    simp only [Option.some.injEq, Prod.mk.injEq] at h2
    obtain ⟨-, hres2, hb2⟩ := h2
    refine ⟨hb2.symm, htl1, ?_, ?_⟩
    · rw [← hres2]
    · rw [← hres2, htl1]

/-- Witness for C10: fetching the two-line content `"x\ny"` twice, the
miss reports 2 lines and the hit reports 1 — off by exactly one. -/
theorem execute_linecount_gap_witness :
    (false : Bool) = false ∧
    outRun1.total_lines = countNewlines "x\ny" + 1 ∧
    outRun2.total_lines = countNewlines "x\ny" ∧
    outRun1.total_lines = outRun2.total_lines + 1 :=
  execute_linecount_gap sampleCache fsEmpty sampleFiling "x\ny" "TSLA" "10-K" "text"
    fsRun1 fsRun1 outRun1 outRun2 false rfl rfl (by decide) (by decide)

/-! ## C5 — pagination slices only the returned list, never the total -/

/-- **C5.** For every search over a file, the returned `total_count`
equals the number of matching lines parsed from the (unpaginated)
`ugrep` output — the same for any `offset`/`max_results` — and the
returned matches are exactly the slice
`matches[offset : offset + max_results]` of that full list.  In
particular, for a file with 5 matching lines, `max_results=2, offset=0`
returns 2 matches with total 5, and `max_results=2, offset=4` returns
just the 5th match with the same total 5. -/
theorem search_pagination :
    (∀ (output : String) (ctx mr off mr' off' : Nat),
      (GrepSearcher.search output ctx mr off).2 = (parseGrepOutput output ctx).length ∧
      (GrepSearcher.search output ctx mr off).2 = (GrepSearcher.search output ctx mr' off').2 ∧
      (GrepSearcher.search output ctx mr off).1 =
        ((parseGrepOutput output ctx).drop off).take mr) ∧
    (parseGrepOutput out5 2).length = 5 ∧
    (GrepSearcher.search out5 2 2 0).1.length = 2 ∧
    (GrepSearcher.search out5 2 2 0).2 = 5 ∧
    (GrepSearcher.search out5 2 2 4).1 =
      [{ line_number := 5, line_content := "risk", context_before := [],
         context_after := [] }] ∧
    (GrepSearcher.search out5 2 2 4).2 = 5 := by
  refine ⟨fun output ctx mr off mr' off' => ⟨rfl, rfl, rfl⟩, ?_, ?_, ?_, ?_, ?_⟩ <;>
    decide

/-! ## C6 — the two freshness-cache windows -/

theorem lookupTS_removeTS {α : Type} (l : List (String × α × Nat)) (key : String) :
    lookupTS (removeTS l key) key = none := by
  induction l with
  | nil => rfl
  | cons e rest ih =>
    obtain ⟨k, v, t⟩ := e
    by_cases he : k = key
    · simpa [removeTS, List.filter_cons, he] using ih
    · simp only [removeTS, List.filter_cons] at ih ⊢
      simp [he, lookupTS, ih]

/-- **C6.** For every key and read time with a cached entry: an age
inside the fresh window returns the entry as fresh with no upstream
call; an age between the fresh and stale-acceptable windows (stale
reads being allowed, as `list_available` requests) returns the entry
flagged stale with no upstream call; an age at or beyond the
stale-acceptable window evicts the entry, the lookup misses, and a
fresh upstream call is made.  (`hw` records the configured invariant
fresh-TTL ≤ stale-TTL: 90 s vs 24 h in the source.) -/
theorem ttlCache_windows (c : TTLCache (List Filing)) (key : String)
    (v : List Filing) (ts now : Nat)
    (hent : lookupTS c.entries key = some (v, ts))
    (hw : c.ttl ≤ c.stale_ttl) :
    (now - ts < c.ttl →
        c.get key now true = ((some v, true), c) ∧
        ∀ up, EdgarAdapter.supplementSafe c key now up = ((v, false), c)) ∧
    (c.ttl ≤ now - ts → now - ts < c.stale_ttl →
        c.get key now true = ((some v, false), c) ∧
        ∀ up, EdgarAdapter.supplementSafe c key now up = ((v, false), c)) ∧
    (c.stale_ttl ≤ now - ts →
        (c.get key now true).1 = (none, false) ∧
        lookupTS ((c.get key now true).2).entries key = none ∧
        ∀ u, EdgarAdapter.supplementSafe c key now (.ok u) =
          ((u, true), ((c.get key now true).2).set key u now)) := by
  refine ⟨?_, ?_, ?_⟩
  · intro hfresh
    have hget : c.get key now true = ((some v, true), c) := by
      simp [TTLCache.get, hent, hfresh]
    refine ⟨hget, fun up => ?_⟩
    unfold EdgarAdapter.supplementSafe EdgarAdapter.supplementTry
    rw [hget]
    rfl
  · intro hge hlt
    have hget : c.get key now true = ((some v, false), c) := by
      simp [TTLCache.get, hent, not_lt.mpr hge, hlt]
    refine ⟨hget, fun up => ?_⟩
    unfold EdgarAdapter.supplementSafe EdgarAdapter.supplementTry
    rw [hget]
    rfl
  · intro hstale
    have hget : c.get key now true =
        ((none, false), { c with entries := removeTS c.entries key }) := by
      simp [TTLCache.get, hent, not_lt.mpr (le_trans hw hstale), not_lt.mpr hstale]
    refine ⟨by rw [hget], ?_, fun u => ?_⟩
    · rw [hget]
      exact lookupTS_removeTS _ _
    · unfold EdgarAdapter.supplementSafe EdgarAdapter.supplementTry
      rw [hget]
      rfl

/-- Witness for C6: the sample cache entry written at second 1000 is
fresh at 1050 (no upstream even when upstream would fail), and at
second 90000 — past the 24-hour stale window — the lookup misses. -/
theorem ttlCache_windows_witness :
    ttlSample.get "current_filings::TSLA" 1050 true
      = ((some [sampleFiling], true), ttlSample) ∧
    EdgarAdapter.supplementSafe ttlSample "current_filings::TSLA" 1050
      (.error "ReadTimeout") = (([sampleFiling], false), ttlSample) ∧
    (ttlSample.get "current_filings::TSLA" 90000 true).1 = (none, false) := by
  have h := ttlCache_windows ttlSample "current_filings::TSLA" [sampleFiling] 1000
    1050 rfl (by decide)
  have h2 := ttlCache_windows ttlSample "current_filings::TSLA" [sampleFiling] 1000
    90000 rfl (by decide)
  exact ⟨(h.1 (by decide)).1, (h.1 (by decide)).2 (.error "ReadTimeout"),
    (h2.2.2 (by decide)).1⟩

/-! ## C7 — supplemental-feed failures never propagate -/

/-- When `get` reports no value, the fresh flag is also false. -/
theorem ttl_get_none_flag {α : Type} (c : TTLCache α) (key : String) (now : Nat)
    (s : Bool) (h : ((c.get key now s).1).1 = none) :
    ((c.get key now s).1).2 = false := by
  unfold TTLCache.get at h ⊢
  cases hl : lookupTS c.entries key with
  | none => rfl
  | some vt =>
    obtain ⟨v, ts⟩ := vt
    rw [hl] at h
    by_cases h1 : now - ts < c.ttl
    · simp [h1] at h
    · by_cases h2 : s = true ∧ now - ts < c.stale_ttl
      · simp [h1, h2] at h
      · simp [h1, h2]

/-- **C7.** For every per-ticker `list_available` call, a failure of the
same-day supplemental recent-filings feed (timeout, rate limit, or any
other raised error) never propagates: the call returns normally with
the historical-only result, the supplemental contribution being the
empty list — the same filing list an empty successful supplement would
give. -/
theorem supplement_failure_swallowed (cache : TTLCache (List Filing)) (key : String)
    (now : Nat) (form_type : String) (historical : List Filing) (e : String)
    (hmiss : ((cache.get key now true).1).1 = none) :
    (EdgarAdapter.listAvailableTickerFull cache key now form_type historical
        (.error e)).1 = EdgarAdapter.listAvailableTicker form_type historical [] ∧
    (EdgarAdapter.listAvailableTickerFull cache key now form_type historical
        (.error e)).1 =
      (EdgarAdapter.listAvailableTickerFull cache key now form_type historical
        (.ok [])).1 := by
  have hfr := ttl_get_none_flag cache key now true hmiss
  rcases hgg : cache.get key now true with ⟨⟨ov, fr⟩, c1⟩
  rw [hgg] at hmiss hfr
  simp only at hmiss hfr
  subst hmiss hfr
  have hsafe : EdgarAdapter.supplementSafe cache key now (.error e)
      = (([], false), c1) := by
    unfold EdgarAdapter.supplementSafe EdgarAdapter.supplementTry
    rw [hgg]
    rfl
  have hsafe2 : EdgarAdapter.supplementSafe cache key now (.ok [])
      = (([], true), c1.set key [] now) := by
    unfold EdgarAdapter.supplementSafe EdgarAdapter.supplementTry
    rw [hgg]
    rfl
  constructor
  · unfold EdgarAdapter.listAvailableTickerFull
    rw [hsafe]
  · unfold EdgarAdapter.listAvailableTickerFull
    rw [hsafe, hsafe2]

/-- Witness for C7: with an empty freshness cache (a guaranteed miss), a
timeout of the supplemental feed still yields the historical-only
result for the three-filing candidate list. -/
theorem supplement_failure_swallowed_witness :
    (EdgarAdapter.listAvailableTickerFull ttlEmpty "current_filings::TSLA" 0 "10-K"
        exFilings (.error "SEC.gov timeout")).1
      = EdgarAdapter.listAvailableTicker "10-K" exFilings [] :=
  (supplement_failure_swallowed ttlEmpty "current_filings::TSLA" 0 "10-K" exFilings
    "SEC.gov timeout" rfl).1

/-! ## C8 — per-ticker listing: date-descending, one entry per date -/

theorem bool_tf {b : Bool} (ht : b = true) (hf : b = false) : False := by
  rw [ht] at hf
  exact Bool.noConfusion hf

theorem sortByDateDesc_pairwise (l : List Filing) :
    (sortByDateDesc l).Pairwise
      (fun a b => strLe b.filing_date a.filing_date = true) :=
  @List.sorted_mergeSort Filing (fun a b => strLe b.filing_date a.filing_date)
    (fun _ _ _ hab hbc => strLe_trans hbc hab)
    (fun a b => strLe_total b.filing_date a.filing_date) l

theorem dedupByDate_sublist :
    ∀ (l : List Filing) (seen : List String), (dedupByDate l seen).Sublist l := by
  intro l
  induction l with
  | nil => intro seen; exact List.Sublist.refl _
  | cons f rest ih =>
    intro seen
    unfold dedupByDate
    rcases Bool.eq_false_or_eq_true (seen.contains f.filing_date) with hc | hc
    · rw [if_pos hc]
      exact (ih seen).cons f
    · rw [if_neg (fun hcc => bool_tf hcc hc)]
      exact (ih _).cons₂ f

theorem dedupByDate_not_seen :
    ∀ (l : List Filing) (seen : List String) (f : Filing),
      f ∈ dedupByDate l seen → seen.contains f.filing_date = false := by
  intro l
  induction l with
  | nil => intro seen f h; exact absurd h (List.not_mem_nil f)
  | cons g rest ih =>
    intro seen f h
    unfold dedupByDate at h
    rcases Bool.eq_false_or_eq_true (seen.contains g.filing_date) with hc | hc
    · rw [if_pos hc] at h
      exact ih seen f h
    · rw [if_neg (fun hcc => bool_tf hcc hc)] at h
      rcases List.mem_cons.mp h with rfl | h'
      · exact hc
      · have h2 := ih _ f h'
        simp only [List.contains_cons, Bool.or_eq_false_iff] at h2
        exact h2.2

theorem dedupByDate_pairwise :
    ∀ (l : List Filing) (seen : List String),
      l.Pairwise (fun a b => strLe b.filing_date a.filing_date = true) →
      (dedupByDate l seen).Pairwise
        (fun a b => strLt b.filing_date a.filing_date = true) := by
  intro l
  induction l with
  | nil => intro seen _; exact List.Pairwise.nil
  | cons g rest ih =>
    intro seen hp
    obtain ⟨hg, hrest⟩ := List.pairwise_cons.mp hp
    unfold dedupByDate
    rcases Bool.eq_false_or_eq_true (seen.contains g.filing_date) with hc | hc
    · rw [if_pos hc]
      exact ih seen hrest
    · rw [if_neg (fun hcc => bool_tf hcc hc)]
      refine List.pairwise_cons.mpr ⟨?_, ih _ hrest⟩
      intro f hf
      have hmem : f ∈ rest := (dedupByDate_sublist rest _).mem hf
      have hle : strLe f.filing_date g.filing_date = true := hg f hmem
      have hns := dedupByDate_not_seen rest _ f hf
      simp only [List.contains_cons, Bool.or_eq_false_iff] at hns
      have hne : f.filing_date ≠ g.filing_date := by
        intro hde
        have h3 : (g.filing_date == g.filing_date) = false := hde ▸ hns.1
        simp at h3
      exact strLt_of_le_of_ne hle hne

theorem dedupByDate_first :
    ∀ (l : List Filing) (seen : List String) (f : Filing),
      f ∈ dedupByDate l seen →
      l.find? (fun x => x.filing_date == f.filing_date) = some f := by
  intro l
  induction l with
  | nil => intro seen f h; exact absurd h (List.not_mem_nil f)
  | cons g rest ih =>
    intro seen f h
    unfold dedupByDate at h
    rcases Bool.eq_false_or_eq_true (seen.contains g.filing_date) with hc | hc
    · rw [if_pos hc] at h
      have hns := dedupByDate_not_seen rest seen f h
      have hne : (g.filing_date == f.filing_date) = false := by
        rcases Bool.eq_false_or_eq_true (g.filing_date == f.filing_date) with ht | hf2
        · rw [beq_iff_eq] at ht
          rw [ht] at hc
          exact (bool_tf hc hns).elim
        · exact hf2
      simp only [List.find?, hne]
      exact ih seen f h
    · rw [if_neg (fun hcc => bool_tf hcc hc)] at h
      rcases List.mem_cons.mp h with rfl | h'
      · simp only [List.find?, beq_self_eq_true]
      · have hns := dedupByDate_not_seen rest _ f h'
        simp only [List.contains_cons, Bool.or_eq_false_iff] at hns
        have hne : (g.filing_date == f.filing_date) = false := by
          rcases Bool.eq_false_or_eq_true (g.filing_date == f.filing_date) with ht | hf2
          · rw [beq_iff_eq] at ht
            have h3 : (f.filing_date == g.filing_date) = false := hns.1
            rw [ht] at h3
            simp at h3
          · exact hf2
        simp only [List.find?, hne]
        exact ih _ f h'

/-- **C8.** Every per-ticker `list_available` result is sorted by filing
date in strictly descending order — hence no two entries share a filing
date — and it is a sublist of the merged-and-sorted candidate list in
which each kept entry is the *first* entry carrying its filing date. -/
theorem listAvailable_order (form_type : String) (historical current : List Filing) :
    (EdgarAdapter.listAvailableTicker form_type historical current).Pairwise
        (fun a b => strLt b.filing_date a.filing_date = true) ∧
    (EdgarAdapter.listAvailableTicker form_type historical current).Sublist
        (EdgarAdapter.mergedSorted form_type historical current) ∧
    ∀ f ∈ EdgarAdapter.listAvailableTicker form_type historical current,
      (EdgarAdapter.mergedSorted form_type historical current).find?
          (fun x => x.filing_date == f.filing_date) = some f :=
  ⟨dedupByDate_pairwise _ [] (sortByDateDesc_pairwise _),
   dedupByDate_sublist _ [],
   fun f hf => dedupByDate_first _ [] f hf⟩

/-! ## C3 — `get_latest` selection rules -/

/-- The last element of a pairwise-related list is related to (or is)
every element. -/
theorem pairwise_getLast {α : Type} {R : α → α → Prop} :
    ∀ (l : List α) (x : α), l.Pairwise R → l.getLast? = some x →
      ∀ y ∈ l, y = x ∨ R y x := by
  intro l
  induction l with
  | nil => intro x _ h; exact absurd h (by simp)
  | cons a t ih =>
    intro x hp hl y hy
    obtain ⟨ha, ht⟩ := List.pairwise_cons.mp hp
    cases t with
    | nil =>
      have hax : a = x := by simpa using hl
      have hya : y = a := by simpa using hy
      exact Or.inl (hya.trans hax)
    | cons b t2 =>
      rw [List.getLast?_cons_cons] at hl
      rcases List.mem_cons.mp hy with rfl | hy2
      · exact Or.inr (ha x (List.mem_of_mem_getLast? hl))
      · exact ih x ht hl y hy2

/-- With a date, a nonempty candidate list reduces `get_latest` to the
last entry of the date filter. -/
theorem getLatest_some_d (filings : List Filing) (d : String) (hne : filings ≠ []) :
    EdgarAdapter.getLatest filings (some d) =
      (filings.filter (fun f => strLe d f.filing_date)).getLast? := by
  unfold EdgarAdapter.getLatest
  rw [if_neg (by simp [hne])]

/-- **C3.** Over any candidate list as `list_available` produces it
(filing-date descending): `get_latest` with no date returns the most
recent (head) entry; with a date it returns a qualifying entry
(date ≥ filter) whose date is the smallest among all qualifying
entries; and it fails (`NotFound`, the raised `ValueError`) exactly
when the candidate list is empty or the date filter leaves nothing. -/
theorem getLatest_selection (filings : List Filing) (d : String)
    (hsorted : filings.Pairwise (fun a b => strLe b.filing_date a.filing_date = true)) :
    (∀ h0, filings.head? = some h0 →
        EdgarAdapter.getLatest filings none = some h0 ∧
        ∀ f ∈ filings, strLe f.filing_date h0.filing_date = true) ∧
    (∀ r, EdgarAdapter.getLatest filings (some d) = some r →
        r ∈ filings ∧ strLe d r.filing_date = true ∧
        ∀ g ∈ filings, strLe d g.filing_date = true →
          strLe r.filing_date g.filing_date = true) ∧
    (EdgarAdapter.getLatest filings (some d) = none ↔
        filings = [] ∨ filings.filter (fun f => strLe d f.filing_date) = []) ∧
    (EdgarAdapter.getLatest filings none = none ↔ filings = []) := by
  refine ⟨?_, ?_, ?_, ?_⟩
  · intro h0 hh
    cases filings with
    | nil => exact absurd hh (by simp)
    | cons a t =>
      have ha : a = h0 := by simpa using hh
      subst ha
      obtain ⟨hg, _⟩ := List.pairwise_cons.mp hsorted
      refine ⟨by simp [EdgarAdapter.getLatest], fun f hf => ?_⟩
      rcases List.mem_cons.mp hf with rfl | hf2
      · exact strLe_refl _
      · exact hg f hf2
  · intro r hr
    have hne : filings ≠ [] := by
      intro h0
      subst h0
      simp [EdgarAdapter.getLatest] at hr
    rw [getLatest_some_d filings d hne] at hr
    have hpf : (filings.filter (fun f => strLe d f.filing_date)).Pairwise
        (fun a b => strLe b.filing_date a.filing_date = true) := hsorted.filter _
    have hrmem : r ∈ filings.filter (fun f => strLe d f.filing_date) :=
      List.mem_of_mem_getLast? hr
    obtain ⟨hrin, hrpred⟩ := List.mem_filter.mp hrmem
    refine ⟨hrin, hrpred, fun g hg hgd => ?_⟩
    have hgmem : g ∈ filings.filter (fun f => strLe d f.filing_date) :=
      List.mem_filter.mpr ⟨hg, hgd⟩
    rcases pairwise_getLast _ r hpf hr g hgmem with rfl | hrel
    · exact strLe_refl _
    · exact hrel
  · constructor
    · intro h
      by_cases hne : filings = []
      · exact Or.inl hne
      · rw [getLatest_some_d filings d hne] at h
        exact Or.inr (List.getLast?_eq_none_iff.mp h)
    · intro h
      rcases h with rfl | hf
      · simp [EdgarAdapter.getLatest]
      · by_cases hne : filings = []
        · subst hne
          simp [EdgarAdapter.getLatest]
        · rw [getLatest_some_d filings d hne, hf]
          rfl
  · cases filings with
    | nil => simp [EdgarAdapter.getLatest]
    | cons a t => simp [EdgarAdapter.getLatest]

/-- Witness for C3: on the example list with dates
[2023-03-01, 2022-06-15, 2021-01-01], the date filter 2022-01-01 picks
the 2022-06-15 filing (oldest qualifying, not the newest overall), no
filter picks the 2023-03-01 filing, and the pick's date is at or before
the other qualifier's. -/
theorem getLatest_selection_witness :
    EdgarAdapter.getLatest exFilings (some "2022-01-01") = some exFiling2022 ∧
    EdgarAdapter.getLatest exFilings none = some exFiling2023 ∧
    exFiling2022 ∈ exFilings ∧
    strLe "2022-01-01" exFiling2022.filing_date = true ∧
    strLe exFiling2022.filing_date exFiling2023.filing_date = true := by
  have h := getLatest_selection exFilings "2022-01-01" (by decide)
  have h2 := h.2.1 exFiling2022 (by decide)
  exact ⟨by decide, by decide, h2.1, h2.2.1,
    h2.2.2 exFiling2023 (by decide) (by decide)⟩
